import Mathlib

/-!
Verification of the tag-converter pipeline of script.js: format detection,
content extraction, cleaning, grouped filtering with replacement, and
redundancy simplification.

Strings are modelled as `List Char`.  The JavaScript whitespace class and
case conversion are modelled on their ASCII fragment, which covers every
character handled by the verified properties.  Each regular expression of
the source is a fixed literal pattern and is embedded as the executable
decision function of its language, derived by hand from the pattern.
-/

namespace TagConv

/-- ASCII part of the JS whitespace class (the class backslash-s). -/
def isWS (c : Char) : Bool :=
  c == ' ' || c == '\t' || c == '\n' || c == '\r' || c == '\u000b' || c == '\u000c'

/-- ASCII lower-casing, modelling JS toLowerCase on the ASCII inputs used here. -/
def lowerStr (l : List Char) : List Char := l.map Char.toLower

/-- JS String.prototype.trim: drop whitespace at both ends. -/
def trimList (l : List Char) : List Char :=
  ((l.dropWhile isWS).reverse.dropWhile isWS).reverse

/-- JS String.prototype.split with a single-character separator. -/
def splitChar (sep : Char) : List Char → List (List Char)
  | [] => [[]]
  | c :: rest =>
    if c = sep then [] :: splitChar sep rest
    else
      match splitChar sep rest with
      | [] => [[c]]
      | p :: ps => (c :: p) :: ps

/-- JS Array.prototype.join with a separator string. -/
def joinSep (sep : List Char) : List (List Char) → List Char
  | [] => []
  | [t] => t
  | t :: ts => t ++ sep ++ joinSep sep ts

/-- JS String.prototype.includes: substring occurrence test. -/
def hasSubstring : List Char → List Char → Bool
  | hay, needle =>
    if needle.isPrefixOf hay then true
    else
      match hay with
      | [] => false
      | _ :: rest => hasSubstring rest needle

/-- The three input formats of CONFIG.FORMATS. -/
inductive Format where
  | danbooru
  | gelbooru
  | standard
deriving DecidableEq

/-- The marker words of CONFIG.PATTERNS.GELBOORU_MARKERS, in source order. -/
def gelbooruMarkerWords : List (List Char) :=
  ["Artist".toList, "Character".toList, "Copyright".toList, "Tag".toList,
    "Metadata".toList]

/-- CONFIG.PATTERNS.GELBOORU_MARKERS: a marker word directly followed by a
question mark occurs somewhere in the input, case-insensitively. -/
def hasGelbooruMarkers (l : List Char) : Bool :=
  gelbooruMarkerWords.any (fun m => hasSubstring (lowerStr l) (lowerStr (m ++ ['?'])))

/-- FormatDetector.detect. -/
def detect (input : List Char) : Format :=
  let hasNewlines := input.contains '\n'
  let hasMarkers := hasGelbooruMarkers input
  let hasQuestionMarks := input.contains '?'
  if !hasNewlines && hasMarkers then Format.gelbooru
  else if hasNewlines && hasQuestionMarks then Format.danbooru
  else if !hasNewlines && hasQuestionMarks then Format.gelbooru
  else Format.standard

/-- The four ordered detection rules as the spec states them in section 4.1,
with rule 3 explicitly requiring the markers to be absent. -/
def detectSpec (input : List Char) : Format :=
  if !(input.contains '\n') && hasGelbooruMarkers input then Format.gelbooru
  else if input.contains '\n' && input.contains '?' then Format.danbooru
  else if !(input.contains '\n') && input.contains '?' && !(hasGelbooruMarkers input) then
    Format.gelbooru
  else Format.standard

/-- Language, as a suffix test, of CONFIG.PATTERNS.WEIGHT_REMOVAL: one or more
whitespace, one or more digits, an optional dot, further digits, an optional
k or M, trailing whitespace, end of string.  The character classes at each
boundary are disjoint, so the greedy left-to-right reading decides
membership. -/
def weightSuffixMatch (l : List Char) : Bool :=
  let ws1 := l.takeWhile isWS
  let r1 := l.dropWhile isWS
  let d1 := r1.takeWhile Char.isDigit
  let r2 := r1.dropWhile Char.isDigit
  let r3 := match r2 with
    | '.' :: t => t
    | other => other
  let r4 := r3.dropWhile Char.isDigit
  let r5 := match r4 with
    | 'k' :: t => t
    | 'M' :: t => t
    | other => other
  !ws1.isEmpty && !d1.isEmpty && (r5.dropWhile isWS).isEmpty

/-- Language, as a suffix test, of CONFIG.PATTERNS.GELBOORU_WEIGHT: one or
more whitespace, one or more digits, then star-whitespace, an optional
category label and a dot-star to the end.  The dot cannot cross a newline and
the label contains none, so the tail matches exactly when the remainder after
the whitespace run following the digits is newline-free. -/
def gelbooruWeightMatch (l : List Char) : Bool :=
  let ws1 := l.takeWhile isWS
  let r1 := l.dropWhile isWS
  let d1 := r1.takeWhile Char.isDigit
  let r2 := r1.dropWhile Char.isDigit
  !ws1.isEmpty && !d1.isEmpty && !(r2.dropWhile isWS).contains '\n'

/-- Language, as a suffix test, of the inline pattern whitespace-plus,
digits-plus, dot-star, end of string used for unlabelled Gelbooru segments:
after the digits the dot-star must reach the end without crossing a
newline. -/
def plainWeightMatch (l : List Char) : Bool :=
  let ws1 := l.takeWhile isWS
  let r1 := l.dropWhile isWS
  let d1 := r1.takeWhile Char.isDigit
  let r2 := r1.dropWhile Char.isDigit
  !ws1.isEmpty && !d1.isEmpty && !r2.contains '\n'

/-- JS String.replace with an end-anchored pattern and empty replacement:
delete the suffix starting at the leftmost position where the pattern matches
through to the end of the string; leave the string unchanged when no position
matches. -/
def replaceFirstSuffixMatch (p : List Char → Bool) : List Char → List Char
  | [] => []
  | c :: rest => if p (c :: rest) then [] else c :: replaceFirstSuffixMatch p rest

/-- The category labels of CONFIG.PATTERNS.CATEGORY_CONTENT, in source order. -/
def gelbooruCategoryWords : List (List Char) :=
  ["Artist".toList, "Character".toList, "Copyright".toList, "Metadata".toList,
    "Tag".toList]

/-- CONFIG.PATTERNS.CATEGORY_CONTENT (no i flag, hence case-sensitive): a
leading category label, at least one whitespace, then the captured remainder.
No label is a prefix of another, so at most one alternative applies; the
greedy whitespace-plus makes the capture start at the first non-whitespace
character, and the dot of the capture group cannot match a newline, so the
whole pattern fails when the remainder contains one. -/
def categoryContentMatch (seg : List Char) : Option (List Char) :=
  match gelbooruCategoryWords.find? (fun m => m.isPrefixOf seg) with
  | none => none
  | some m =>
    let rest := seg.drop m.length
    if (rest.takeWhile isWS).isEmpty then none
    else
      let content := rest.dropWhile isWS
      if content.contains '\n' then none else some content

/-- ContentExtractor.processGelbooruSegment.  In the unlabelled branch the
source keeps the segment only when it is truthy and longer than one
character, so empty is subsumed by length at most one; in the labelled branch
only the empty result is dropped. -/
def processGelbooruSegment (seg : List Char) : Option (List Char) :=
  match categoryContentMatch seg with
  | some content =>
    let c := trimList (replaceFirstSuffixMatch gelbooruWeightMatch content)
    if c.isEmpty then none else some c
  | none =>
    let c := trimList (replaceFirstSuffixMatch plainWeightMatch seg)
    if c.length ≤ 1 then none else some c

/-- ContentExtractor.extractGelbooru. -/
def extractGelbooru (input : List Char) : List Char :=
  joinSep (", ".toList) ((splitChar '?' input).filterMap (fun seg =>
    let t := trimList seg
    if t.isEmpty then none else processGelbooruSegment t))

/-- The scan of ContentExtractor.extractDanbooru: whenever a trimmed line is
exactly a question mark, capture the following line and skip it. -/
def danbooruContentLines : List (List Char) → List (List Char)
  | [] => []
  | l :: rest =>
    if l = ['?'] then
      match rest with
      | [] => []
      | x :: rest2 => x :: danbooruContentLines rest2
    else danbooruContentLines rest

/-- ContentExtractor.extractDanbooru. -/
def extractDanbooru (input : List Char) : List Char :=
  joinSep (", ".toList) (danbooruContentLines ((splitChar '\n' input).map trimList))

/-- ContentExtractor.extract. -/
def extract (input : List Char) (format : Format) : List Char :=
  match format with
  | Format.danbooru => extractDanbooru input
  | Format.gelbooru => extractGelbooru input
  | Format.standard => input

/-- CONFIG.CATEGORY_MARKERS. -/
def CATEGORY_MARKERS : List (List Char) :=
  ["Artist".toList, "Character".toList, "Copyright".toList, "Tag".toList,
    "Metadata".toList, "General".toList]

/-- ContentCleaner.isPureCategoryWord. -/
def isPureCategoryWord (tag : List Char) : Bool :=
  CATEGORY_MARKERS.any (fun w => decide (lowerStr w = lowerStr tag))

/-- JS global replace of whitespace-plus by a single space: collapse every
maximal whitespace run to one space. -/
def squeezeWS : List Char → List Char
  | [] => []
  | [c] => [if isWS c then ' ' else c]
  | c :: d :: rest =>
    if isWS c && isWS d then squeezeWS (d :: rest)
    else (if isWS c then ' ' else c) :: squeezeWS (d :: rest)

/-- ContentCleaner.cleanSingleTag. -/
def cleanSingleTag (tag : List Char) : Option (List Char) :=
  if tag.isEmpty then none
  else if isPureCategoryWord tag then none
  else
    let cleaned1 := trimList (replaceFirstSuffixMatch weightSuffixMatch tag)
    let cleaned2 := trimList (squeezeWS cleaned1)
    if cleaned2.isEmpty then none else some cleaned2

/-- Loop of ContentCleaner.removeDuplicates: the seen set holds the
lower-cased forms already emitted. -/
def removeDupAux (seen : List (List Char)) : List (List Char) → List (List Char)
  | [] => []
  | t :: ts =>
    if lowerStr t ∈ seen then removeDupAux seen ts
    else t :: removeDupAux (lowerStr t :: seen) ts

/-- ContentCleaner.removeDuplicates: case-insensitive, first seen wins. -/
def removeDuplicates (tags : List (List Char)) : List (List Char) :=
  removeDupAux [] tags

/-- ContentCleaner.clean. -/
def clean (rawText : List Char) : List (List Char) :=
  if rawText.isEmpty then []
  else removeDuplicates (((splitChar ',' rawText).map trimList).filterMap cleanSingleTag)

/-- A filter group.  The id, name and collapsed fields of the source carry no
filtering semantics and are omitted; meta.currentMatchCount is inlined. -/
structure Group where
  enabled : Bool
  keywords : List (List Char)
  replacement : List Char
  currentMatchCount : Nat

/-- The mutable state of GroupedFilterManager read and written by
applyFilter. -/
structure FilterState where
  masterEnabled : Bool
  simplifyEnabled : Bool
  groups : List Group
  lastTotalFilteredCount : Nat
  lastSimplifiedCount : Nat

/-- JS new RegExp(keyword, i flag).test(tag) for keywords free of regex
metacharacters, which covers every keyword occurring in the verified claims:
such a keyword always compiles, and the compiled pattern accepts exactly the
tags containing the keyword case-insensitively, so the escape-and-anchor
fallback branch of GroupedFilterManager.compileGroupPatterns is unreachable
for them. -/
def patternTest (keyword tag : List Char) : Bool :=
  hasSubstring (lowerStr tag) (lowerStr keyword)

/-- GroupedFilterManager.compileGroupPatterns: keywords that are blank after
trimming are skipped. -/
def compileGroupPatterns (keywords : List (List Char)) : List (List Char) :=
  keywords.filter (fun k => !(trimList k).isEmpty)

/-- Indices of the tags matched by any pattern of the group, in ascending
order, mirroring the forEach of GroupedFilterManager.applyGroupFilter. -/
def matchedIndicesFrom (patterns : List (List Char)) (i : Nat) :
    List (List Char) → List Nat
  | [] => []
  | t :: ts =>
    if patterns.any (fun k => patternTest k t) then
      i :: matchedIndicesFrom patterns (i + 1) ts
    else matchedIndicesFrom patterns (i + 1) ts

/-- Drop the tags whose index lies in the matched set. -/
def removeAtIndices (matched : List Nat) (i : Nat) :
    List (List Char) → List (List Char)
  | [] => []
  | t :: ts =>
    if i ∈ matched then removeAtIndices matched (i + 1) ts
    else t :: removeAtIndices matched (i + 1) ts

/-- Loop of GroupedFilterManager.dedupeKeepFirst (exact string equality). -/
def dedupeAux (seen : List (List Char)) : List (List Char) → List (List Char)
  | [] => []
  | t :: ts => if t ∈ seen then dedupeAux seen ts else t :: dedupeAux (t :: seen) ts

/-- GroupedFilterManager.dedupeKeepFirst. -/
def dedupeKeepFirst (l : List (List Char)) : List (List Char) := dedupeAux [] l

/-- The bad-comma regex of GroupedFilterManager.isValidReplacement, as a scan:
whitespace before a comma, or a comma not followed by whitespace (including a
comma at the end, where the negative lookahead succeeds), or a comma followed
by two whitespace characters. -/
def hasBadCommaB : List Char → Bool
  | [] => false
  | [c] => c == ','
  | c :: d :: rest =>
    (isWS c && d == ',') ||
    (c == ',' && !isWS d) ||
    (c == ',' && isWS d && (match rest with | e :: _ => isWS e | [] => false)) ||
    hasBadCommaB (d :: rest)

/-- JS String.prototype.split on the two-character separator comma-space. -/
def splitCommaSpace : List Char → List (List Char)
  | [] => [[]]
  | [c] => [[c]]
  | ',' :: ' ' :: rest => [] :: splitCommaSpace rest
  | c :: d :: rest =>
    match splitCommaSpace (d :: rest) with
    | [] => [[c]]
    | p :: ps => (c :: p) :: ps

/-- GroupedFilterManager.isValidReplacement. -/
def isValidReplacement (replacement : List Char) : Bool :=
  if (trimList replacement).isEmpty then true
  else if replacement.contains ',' then
    if hasBadCommaB replacement then false
    else
      let parts := splitCommaSpace replacement
      if parts.any (fun p => (trimList p).isEmpty) then false
      else decide (joinSep (", ".toList) parts = replacement)
  else true

/-- GroupedFilterManager.parseReplacementString. -/
def parseReplacementString (replacement : List Char) : List (List Char) :=
  if (trimList replacement).isEmpty then []
  else ((splitCommaSpace replacement).map trimList).filter (fun t => !t.isEmpty)

/-- GroupedFilterManager.applyGroupFilter.  The matched index list is
ascending, so its head is the minimum taken by the source; Array.splice
clamps the insertion position at the list length, as take and drop do. -/
def applyGroupFilter (tags : List (List Char)) (g : Group) :
    List (List Char) × Nat :=
  let patterns := compileGroupPatterns g.keywords
  let matched := matchedIndicesFrom patterns 0 tags
  if matched.isEmpty then (tags, 0)
  else
    let filteredTags := removeAtIndices matched 0 tags
    let withRepl :=
      if !g.replacement.isEmpty && isValidReplacement g.replacement then
        let tokens := parseReplacementString g.replacement
        if tokens.isEmpty then filteredTags
        else
          let insertPos := matched.headD 0
          filteredTags.take insertPos ++ tokens ++ filteredTags.drop insertPos
      else filteredTags
    (dedupeKeepFirst withRepl, matched.length)

/-- Containment test of GroupedFilterManager.simplifyTags: some other tag
contains the tag as a plain substring and differs from it.  The index
inequality of the source loop is subsumed: at the tag's own index the
string-inequality test fails. -/
def isContainedInOther (tags : List (List Char)) (t : List Char) : Bool :=
  tags.any (fun u => hasSubstring u t && u != t)

/-- GroupedFilterManager.simplifyTags.  The source keeps the original order
(the sort by originalIndex is the identity on the filtered list), so the
result is a stable filter. -/
def simplifyTags (tags : List (List Char)) : List (List Char) :=
  if tags.length ≤ 1 then tags
  else tags.filter (fun t => !isContainedInOther tags t)

/-- Replace the transient match count of a group. -/
def setMatchCount (g : Group) (n : Nat) : Group :=
  { enabled := g.enabled, keywords := g.keywords, replacement := g.replacement,
    currentMatchCount := n }

/-- The group fold of GroupedFilterManager.applyFilter: current tag list,
updated group list, accumulated total match count. -/
def runGroups : List Group → List (List Char) →
    List (List Char) × List Group × Nat
  | [], tags => (tags, [], 0)
  | g :: gs, tags =>
    if !g.enabled || g.keywords.isEmpty then
      let r := runGroups gs tags
      (r.1, setMatchCount g 0 :: r.2.1, r.2.2)
    else
      let gr := applyGroupFilter tags g
      let r := runGroups gs gr.1
      (r.1, setMatchCount g gr.2 :: r.2.1, gr.2 + r.2.2)

/-- GroupedFilterManager.applyFilter: returns the filtered tags together with
the updated state (per-group match counts and the two aggregate counters). -/
def applyFilter (st : FilterState) (tags : List (List Char)) :
    List (List Char) × FilterState :=
  if !st.masterEnabled then (tags, st)
  else
    let r := runGroups st.groups tags
    let simpPhase :=
      if st.simplifyEnabled then
        let s := simplifyTags r.1
        (s, r.1.length - s.length)
      else (r.1, 0)
    (simpPhase.1,
      { masterEnabled := st.masterEnabled
        simplifyEnabled := st.simplifyEnabled
        groups := r.2.1
        lastTotalFilteredCount := r.2.2
        lastSimplifiedCount := simpPhase.2 })

/-- The detect, extract, clean, applyFilter chain of TagConverter.convert on
an already trimmed input; total, hence always an ok result. -/
def pipelineRun (input : List Char) (st : FilterState) :
    FilterState × Except Unit (List (List Char)) :=
  let format := detect input
  let rawContent := extract input format
  let cleanedTags := clean rawContent
  let fr := applyFilter st cleanedTags
  (fr.2, Except.ok fr.1)

/-- TagConverter.convert around an arbitrary chain: none models a non-string
input, the empty string is returned early, and the try-catch turns an error
escaping the chain into an empty tag list while keeping whatever state the
chain produced before failing. -/
def convertWith
    (run : List Char → FilterState → FilterState × Except Unit (List (List Char)))
    (st : FilterState) : Option (List Char) → List (List Char) × FilterState
  | none => ([], st)
  | some input =>
    if input.isEmpty then ([], st)
    else
      match run (trimList input) st with
      | (st1, Except.ok tags) => (tags, st1)
      | (st1, Except.error _) => ([], st1)

/-- TagConverter.convert with the real pipeline. -/
def convert (st : FilterState) (input : Option (List Char)) :
    List (List Char) × FilterState :=
  convertWith pipelineRun st input

/-- Spec wording of the comma shape for C6, read literally with the space
character: every comma is preceded by no space and followed by exactly one
space. -/
def everyCommaSpacedStrict (l : List Char) : Prop :=
  ∀ a b, l = a ++ ',' :: b →
    (∀ c, a.getLast? = some c → c ≠ ' ') ∧
    (∃ d b2, b = d :: b2 ∧ d = ' ' ∧ ∀ e, b2.head? = some e → e ≠ ' ')

/-- The replacement strings the spec calls valid, read literally with the
space character. -/
def specValidReplacement (l : List Char) : Prop :=
  trimList l = [] ∨ ',' ∉ l ∨
    (everyCommaSpacedStrict l ∧ (∀ p ∈ splitCommaSpace l, trimList p ≠ []) ∧
      joinSep (", ".toList) (splitCommaSpace l) = l)

/-- The comma shape with whitespace in place of space: every comma is
preceded by no whitespace and followed by exactly one whitespace
character. -/
def everyCommaSpacedWS (l : List Char) : Prop :=
  ∀ a b, l = a ++ ',' :: b →
    (∀ c, a.getLast? = some c → isWS c = false) ∧
    (∃ d b2, b = d :: b2 ∧ isWS d = true ∧ ∀ e, b2.head? = some e → isWS e = false)

/-- The amended validity predicate: as the spec says, but with whitespace
character in place of space. -/
def amendedValidReplacement (l : List Char) : Prop :=
  trimList l = [] ∨ ',' ∉ l ∨
    (everyCommaSpacedWS l ∧ (∀ p ∈ splitCommaSpace l, trimList p ≠ []) ∧
      joinSep (", ".toList) (splitCommaSpace l) = l)

/-- The single filter group of claim C1: enabled, keyword hat, no
replacement. -/
def hatGroup : Group :=
  { enabled := true, keywords := ["hat".toList], replacement := [],
    currentMatchCount := 0 }

/-- The engine state of claim C1: master switch on, simplification off, the
hat group alone. -/
def hatState : FilterState :=
  { masterEnabled := true, simplifyEnabled := false, groups := [hatGroup],
    lastTotalFilteredCount := 0, lastSimplifiedCount := 0 }

/-- An arbitrary concrete state used by closed witnesses. -/
def demoState : FilterState :=
  { masterEnabled := false, simplifyEnabled := false, groups := [],
    lastTotalFilteredCount := 3, lastSimplifiedCount := 4 }



/-! ### Helper lemmas -/

/-- The substring test bounds the needle's length by the haystack's. -/
theorem hasSubstring_spec : ∀ hay needle : List Char,
    hasSubstring hay needle = true →
    needle.length ≤ hay.length ∧ (needle.length = hay.length → needle = hay) := by
  intro hay
  induction hay with
  | nil =>
    intro needle h
    rw [hasSubstring] at h
    split at h
    · rename_i hp
      have := List.isPrefixOf_iff_prefix.mp hp
      have hlen := List.IsPrefix.length_le this
      exact ⟨hlen, fun he => List.IsPrefix.eq_of_length this he⟩
    · simp at h
  | cons c rest ih =>
    intro needle h
    rw [hasSubstring] at h
    split at h
    · rename_i hp
      have := List.isPrefixOf_iff_prefix.mp hp
      have hlen := List.IsPrefix.length_le this
      exact ⟨hlen, fun he => List.IsPrefix.eq_of_length this he⟩
    · have := ih needle h
      constructor
      · exact Nat.le_trans this.1 (by simp)
      · intro he
        exfalso
        have h1 := this.1
        simp [he] at h1

/-- Containment in a sublist implies containment in the enclosing list. -/
theorem isContained_mono {S L : List (List Char)} {t : List Char}
    (hsub : ∀ x ∈ S, x ∈ L) (h : isContainedInOther S t = true) :
    isContainedInOther L t = true := by
  simp only [isContainedInOther, List.any_eq_true] at h ⊢
  obtain ⟨u, hu, hc⟩ := h
  exact ⟨u, hsub u hu, hc⟩

/-- A nonempty list of strings has an element of maximal length. -/
theorem existsMaxLen : ∀ l : List (List Char), l ≠ [] →
    ∃ t ∈ l, ∀ u ∈ l, u.length ≤ t.length := by
  intro l
  induction l with
  | nil => intro h; exact absurd rfl h
  | cons t l ih =>
    intro _
    cases l with
    | nil =>
      refine ⟨t, by simp, ?_⟩
      intro u hu
      simp at hu
      simp [hu]
    | cons s l2 =>
      obtain ⟨m, hm, hmax⟩ := ih (by simp)
      by_cases hc : m.length ≤ t.length
      · refine ⟨t, by simp, ?_⟩
        intro u hu
        rcases List.mem_cons.mp hu with rfl | hu2
        · exact Nat.le_refl _
        · exact Nat.le_trans (hmax u hu2) hc
      · refine ⟨m, List.mem_cons_of_mem t hm, ?_⟩
        intro u hu
        rcases List.mem_cons.mp hu with rfl | hu2
        · omega
        · exact hmax u hu2

/-! ### Claim C7 -/

/-- Claim C7 (confirmed): detect is total and implements exactly the four
ordered rules of the spec; it always returns one of the three formats. -/
theorem C7_detect_rules_total (l : List Char) :
    detect l = detectSpec l ∧
    (detect l = Format.danbooru ∨ detect l = Format.gelbooru ∨
      detect l = Format.standard) := by
  constructor
  · unfold detect detectSpec
    cases h1 : l.contains '\n' <;> cases h2 : hasGelbooruMarkers l <;>
      cases h3 : l.contains '?' <;> simp [h1, h2, h3]
  · unfold detect
    cases h1 : l.contains '\n' <;> cases h2 : hasGelbooruMarkers l <;>
      cases h3 : l.contains '?' <;> simp [h1, h2, h3]

/-! ### Claim C8 -/

/-- Claim C8 (confirmed): with the master switch off, applyFilter is the
identity and performs no statistics update: the returned state is the input
state, so every group's match count and both aggregate counters keep their
prior values. -/
theorem C8_master_off_identity (st : FilterState) (tags : List (List Char))
    (h : st.masterEnabled = false) :
    applyFilter st tags = (tags, st) ∧
    (applyFilter st tags).2.groups.map Group.currentMatchCount =
      st.groups.map Group.currentMatchCount ∧
    (applyFilter st tags).2.lastTotalFilteredCount = st.lastTotalFilteredCount ∧
    (applyFilter st tags).2.lastSimplifiedCount = st.lastSimplifiedCount := by
  have h1 : applyFilter st tags = (tags, st) := by
    simp [applyFilter, h]
  exact ⟨h1, by rw [h1], by rw [h1], by rw [h1]⟩

/-- Witness for C8 at a concrete state and tag list. -/
theorem C8_master_off_identity_witness :
    demoState.masterEnabled = false ∧
    applyFilter demoState ["a".toList] = (["a".toList], demoState) :=
  ⟨rfl, (C8_master_off_identity demoState ["a".toList] rfl).1⟩

/-! ### Claim C1 -/

/-- Claim C1 is false on the code: the keyword hat compiles as a valid,
unanchored case-insensitive regex and therefore also matches red hat, so the
result is not the claimed singleton with match count one. -/
theorem C1_counterexample :
    ¬ ((applyFilter hatState ["hat".toList, "red hat".toList]).1 = ["red hat".toList] ∧
      (applyFilter hatState ["hat".toList, "red hat".toList]).2.groups.map
        Group.currentMatchCount = [1]) := by
  decide

/-- Claim C1 (amended): the unanchored pattern matches both tags, so
applyFilter removes both, returning the empty list with the group's match
count recorded as two; the exact-match anchoring applies only to keywords
that fail to compile as a regex. -/
theorem C1_amended :
    (applyFilter hatState ["hat".toList, "red hat".toList]).1 = [] ∧
    (applyFilter hatState ["hat".toList, "red hat".toList]).2.groups.map
      Group.currentMatchCount = [2] ∧
    (applyFilter hatState ["hat".toList, "red hat".toList]).2.lastTotalFilteredCount = 2 := by
  decide

/-! ### Claim C2 -/

/-- Claim C2 is false on the code: the grouped engine's simplification pass
does not keep both tags of the censored, uncensored pair. -/
theorem C2_counterexample :
    ¬ (simplifyTags ["censored".toList, "uncensored".toList] =
      ["censored".toList, "uncensored".toList]) := by
  decide

/-- Claim C2 (amended): the grouped engine's simplification uses plain
substring containment, so censored is contained in uncensored and is dropped;
the word-boundary logic lives only in the legacy flat engine, which the
grouped pipeline does not call. -/
theorem C2_amended :
    simplifyTags ["censored".toList, "uncensored".toList] = ["uncensored".toList] := by
  decide

/-! ### Claim C5 -/

/-- Claim C5 is false on the code: a category-labelled segment whose stripped
content has length one is kept, and appears in the comma-joined output. -/
theorem C5_counterexample :
    processGelbooruSegment "Tag x 12".toList = some "x".toList ∧
    ("x".toList).length = 1 ∧
    extractGelbooru "Tag x 12".toList = "x".toList := by
  decide

/-- Claim C5 (amended): an unlabelled segment is discarded exactly when its
stripped, trimmed result is empty or of length one, while a category-labelled
segment is discarded exactly when its stripped, trimmed content is empty, so
a length-one result from a labelled segment survives. -/
theorem C5_amended (seg : List Char) :
    (categoryContentMatch seg = none →
      (processGelbooruSegment seg = none ↔
        (trimList (replaceFirstSuffixMatch plainWeightMatch seg)).length ≤ 1)) ∧
    (∀ content, categoryContentMatch seg = some content →
      (processGelbooruSegment seg = none ↔
        trimList (replaceFirstSuffixMatch gelbooruWeightMatch content) = [])) := by
  constructor
  · intro h
    rw [processGelbooruSegment, h]
    by_cases hc : (trimList (replaceFirstSuffixMatch plainWeightMatch seg)).length ≤ 1 <;>
      simp [hc]
  · intro content h
    rw [processGelbooruSegment, h]
    by_cases hc : trimList (replaceFirstSuffixMatch gelbooruWeightMatch content) = [] <;>
      simp [hc, List.isEmpty_iff]

/-- Witness for C5 at a concrete unlabelled segment whose stripped, trimmed
result has length one and is therefore discarded. -/
theorem C5_amended_witness : processGelbooruSegment "a 1".toList = none :=
  ((C5_amended "a 1".toList).1 (by decide)).mpr (by decide)

/-! ### Claim C3 -/

/-- Claim C3 (confirmed): convert returns the empty list with untouched state
for non-string or empty input, and an error escaping the
detect-extract-clean-filter chain is caught inside convert and surfaces as an
empty tag list instead of propagating. -/
theorem C3_convert_fail_soft
    (run : List Char → FilterState → FilterState × Except Unit (List (List Char)))
    (st : FilterState) (input : Option (List Char)) :
    ((input = none ∨ input = some []) → convertWith run st input = ([], st)) ∧
    (∀ s st1 e, input = some s → s ≠ [] → run (trimList s) st = (st1, Except.error e) →
      convertWith run st input = ([], st1)) ∧
    ((input = none ∨ input = some []) → convert st input = ([], st)) := by
  refine ⟨?_, ?_, ?_⟩
  · rintro (rfl | rfl) <;> simp [convertWith]
  · rintro s st1 e rfl hne hrun
    simp only [convertWith, List.isEmpty_iff, if_neg hne, hrun]
  · rintro (rfl | rfl) <;> simp [convert, convertWith]

/-- Witness for C3: a chain that always fails yields the empty list, and a
none input yields the empty list with untouched state. -/
theorem C3_convert_fail_soft_witness :
    convertWith (fun _ st => (st, Except.error ())) demoState (some "a".toList) =
      ([], demoState) ∧
    convert demoState none = ([], demoState) :=
  ⟨(C3_convert_fail_soft (fun _ st => (st, Except.error ())) demoState
      (some "a".toList)).2.1 "a".toList demoState () rfl (by decide) rfl,
    (C3_convert_fail_soft pipelineRun demoState none).2.2 (Or.inl rfl)⟩

/-! ### Claim C9 -/

/-- Claim C9 (confirmed): the simplification pass is idempotent; every
survivor of one pass survives a second pass, because the containment test
over the smaller list has only fewer candidate containers. -/
theorem C9_simplify_idempotent (tags : List (List Char)) :
    simplifyTags (simplifyTags tags) = simplifyTags tags := by
  by_cases h1 : tags.length ≤ 1
  · have e1 : simplifyTags tags = tags := by
      simp only [simplifyTags]; rw [if_pos h1]
    rw [e1, e1]
  · have e2 : simplifyTags tags = tags.filter (fun t => !isContainedInOther tags t) := by
      simp only [simplifyTags]; rw [if_neg h1]
    rw [e2]
    set S := tags.filter (fun t => !isContainedInOther tags t) with hS
    by_cases h2 : S.length ≤ 1
    · simp only [simplifyTags]; rw [if_pos h2]
    · simp only [simplifyTags]; rw [if_neg h2]
      apply List.filter_eq_self.mpr
      intro t htS
      have htags := List.mem_filter.mp htS
      have hfalse : isContainedInOther S t = false := by
        by_contra hb
        rw [Bool.not_eq_false] at hb
        have hmono : isContainedInOther tags t = true :=
          isContained_mono (fun x hx => (List.mem_filter.mp hx).1) hb
        have := htags.2
        rw [hmono] at this
        simp at this
      simp [hfalse]

/-! ### Claim C10 -/

/-- Claim C10 (confirmed): simplification never empties a nonempty list; a
tag of maximal length survives, since a tag is dropped only for a different
containing tag, which is then strictly longer. -/
theorem C10_simplify_nonempty (tags : List (List Char)) (h : tags ≠ []) :
    simplifyTags tags ≠ [] := by
  by_cases h1 : tags.length ≤ 1
  · have e1 : simplifyTags tags = tags := by
      simp only [simplifyTags]; rw [if_pos h1]
    rw [e1]; exact h
  · have e2 : simplifyTags tags = tags.filter (fun t => !isContainedInOther tags t) := by
      simp only [simplifyTags]; rw [if_neg h1]
    rw [e2]
    obtain ⟨t, ht, hmax⟩ := existsMaxLen tags h
    have hcont : isContainedInOther tags t = false := by
      by_contra hb
      rw [Bool.not_eq_false] at hb
      simp only [isContainedInOther, List.any_eq_true] at hb
      obtain ⟨u, hu, hc⟩ := hb
      rw [Bool.and_eq_true] at hc
      obtain ⟨hsub, hne⟩ := hc
      have hspec := hasSubstring_spec u t hsub
      have hle := hmax u hu
      have heq := hspec.2 (Nat.le_antisymm hspec.1 hle)
      exact (bne_iff_ne.mp hne) heq.symm
    intro hnil
    have hmem : t ∈ tags.filter (fun t => !isContainedInOther tags t) :=
      List.mem_filter.mpr ⟨ht, by simp [hcont]⟩
    rw [hnil] at hmem
    exact absurd hmem (List.not_mem_nil t)

/-- Witness for C10 at a concrete nonempty list. -/
theorem C10_simplify_nonempty_witness :
    (["solo".toList] : List (List Char)) ≠ [] ∧ simplifyTags ["solo".toList] ≠ [] :=
  ⟨by decide, C10_simplify_nonempty ["solo".toList] (by decide)⟩


/-! ### Helper lemmas for claim C4 -/

/-- The head of a dropWhile result fails the predicate. -/
theorem head?_dropWhile (p : Char → Bool) (l : List Char) (c : Char)
    (h : (l.dropWhile p).head? = some c) : p c = false := by
  induction l with
  | nil => simp at h
  | cons a l ih =>
    rw [List.dropWhile_cons] at h
    split at h
    · exact ih h
    · rename_i hp
      simp at h
      rw [← h]
      simpa using hp

/-- dropWhile keeps the last element when its result is nonempty. -/
theorem getLast?_dropWhile (p : Char → Bool) (l : List Char) :
    l.dropWhile p = [] ∨ (l.dropWhile p).getLast? = l.getLast? := by
  induction l with
  | nil => left; rfl
  | cons a l ih =>
    rw [List.dropWhile_cons]
    split
    · by_cases hdl : l.dropWhile p = []
      · left; exact hdl
      · right
        rcases ih with h | h
        · exact absurd h hdl
        · rw [h]
          cases l with
          | nil => simp at hdl
          | cons b l2 => rw [List.getLast?_cons_cons]
    · right; rfl

/-- A list whose head fails the predicate is unchanged by dropWhile. -/
theorem dropWhile_eq_self_of_head (p : Char → Bool) (m : List Char)
    (h : ∀ c, m.head? = some c → p c = false) : m.dropWhile p = m := by
  cases m with
  | nil => rfl
  | cons a l =>
    rw [List.dropWhile_cons, if_neg]
    simp [h a rfl]

/-- Trimming is idempotent. -/
theorem trimList_idem (l : List Char) : trimList (trimList l) = trimList l := by
  unfold trimList
  set u := l.dropWhile isWS with hu
  set v := u.reverse.dropWhile isWS with hv
  have hA : v.reverse.dropWhile isWS = v.reverse := by
    apply dropWhile_eq_self_of_head
    intro c hc
    rw [List.head?_reverse] at hc
    rcases getLast?_dropWhile isWS u.reverse with h | h
    · rw [← hv] at h
      rw [h] at hc
      simp at hc
    · rw [← hv] at h
      rw [h, List.getLast?_reverse] at hc
      exact head?_dropWhile isWS l c (by rw [← hu]; exact hc)
  rw [hA, List.reverse_reverse, hv, List.dropWhile_idempotent]

/-- A leading space disappears under trimming. -/
theorem trimList_cons_space (t : List Char) : trimList (' ' :: t) = trimList t := by
  unfold trimList
  rw [List.dropWhile_cons, if_pos]
  decide

/-- Members of the trimmed list are members of the list. -/
theorem mem_trimList {c : Char} {l : List Char} (h : c ∈ trimList l) : c ∈ l := by
  unfold trimList at h
  rw [List.mem_reverse] at h
  have h2 : c ∈ (l.dropWhile isWS).reverse := (List.dropWhile_sublist _).subset h
  rw [List.mem_reverse] at h2
  exact (List.dropWhile_sublist _).subset h2

/-- A list that trims to nothing is all whitespace. -/
theorem trimList_eq_nil_all_ws {l : List Char} (h : trimList l = []) :
    ∀ c ∈ l, isWS c = true := by
  unfold trimList at h
  rw [List.reverse_eq_nil_iff, List.dropWhile_eq_nil_iff] at h
  intro c hc
  rw [← List.takeWhile_append_dropWhile (p := isWS) (l := l)] at hc
  rcases List.mem_append.mp hc with h1 | h1
  · exact List.mem_takeWhile_imp h1
  · exact h c (List.mem_reverse.mpr h1)

/-- Whitespace squeezing only introduces plain spaces. -/
theorem squeezeWS_mem : ∀ {l : List Char} {c : Char}, c ∈ squeezeWS l → c = ' ' ∨ c ∈ l := by
  intro l
  induction l with
  | nil => intro c h; simp [squeezeWS] at h
  | cons a l ih =>
    intro c h
    cases l with
    | nil =>
      simp only [squeezeWS, List.mem_singleton] at h
      split at h
      · left; exact h
      · right; simp [h]
    | cons b l2 =>
      rw [squeezeWS] at h
      split at h
      · rcases ih h with h1 | h1
        · left; exact h1
        · right; exact List.mem_cons_of_mem a h1
      · rcases List.mem_cons.mp h with h1 | h1
        · split at h1
          · left; exact h1
          · right; simp [h1]
        · rcases ih h1 with h2 | h2
          · left; exact h2
          · right; exact List.mem_cons_of_mem a h2

/-- Suffix replacement keeps a prefix of the input. -/
theorem mem_replaceFirstSuffixMatch (p : List Char → Bool) :
    ∀ {l : List Char} {c : Char}, c ∈ replaceFirstSuffixMatch p l → c ∈ l := by
  intro l
  induction l with
  | nil => intro c h; simp [replaceFirstSuffixMatch] at h
  | cons a l ih =>
    intro c h
    rw [replaceFirstSuffixMatch] at h
    split at h
    · simp at h
    · rcases List.mem_cons.mp h with h1 | h1
      · simp [h1]
      · exact List.mem_cons_of_mem a (ih h1)

/-- Splitting a separator-free list is the identity. -/
theorem splitChar_of_not_mem {sep : Char} : ∀ {l : List Char}, sep ∉ l →
    splitChar sep l = [l] := by
  intro l
  induction l with
  | nil => intro _; rfl
  | cons c rest ih =>
    intro h
    have hc : ¬ c = sep := fun he => h (by simp [he])
    have hrest : sep ∉ rest := fun hm => h (List.mem_cons_of_mem c hm)
    rw [splitChar, if_neg hc, ih hrest]

/-- splitChar never returns an empty list of pieces. -/
theorem splitChar_ne_nil (sep : Char) : ∀ l : List Char, splitChar sep l ≠ [] := by
  intro l
  induction l with
  | nil => simp [splitChar]
  | cons c rest ih =>
    rw [splitChar]
    split
    · simp
    · split
      · simp
      · simp

/-- Splitting after a separator-free prefix peels it off. -/
theorem splitChar_append {sep : Char} : ∀ {a : List Char}, sep ∉ a → ∀ b : List Char,
    splitChar sep (a ++ sep :: b) = a :: splitChar sep b := by
  intro a
  induction a with
  | nil =>
    intro _ b
    rw [List.nil_append, splitChar, if_pos rfl]
  | cons c a2 ih =>
    intro h b
    have hc : ¬ c = sep := fun he => h (by simp [he])
    have ha2 : sep ∉ a2 := fun hm => h (List.mem_cons_of_mem c hm)
    rw [List.cons_append, splitChar, if_neg hc, ih ha2 b]

/-- Prepending a non-separator character extends the first piece. -/
theorem splitChar_cons_of_ne {sep c : Char} (hc : ¬ c = sep) {l : List Char}
    {q : List Char} {qs : List (List Char)} (hsp : splitChar sep l = q :: qs) :
    splitChar sep (c :: l) = (c :: q) :: qs := by
  rw [splitChar, if_neg hc, hsp]

/-- Pieces of a split contain no separator. -/
theorem mem_splitChar {sep : Char} : ∀ {l : List Char} {p : List Char},
    p ∈ splitChar sep l → sep ∉ p := by
  intro l
  induction l with
  | nil =>
    intro p h
    simp [splitChar] at h
    simp [h]
  | cons c rest ih =>
    intro p h
    rw [splitChar] at h
    split at h
    · rcases List.mem_cons.mp h with h1 | h1
      · simp [h1]
      · exact ih h1
    · rename_i hc
      cases hsp : splitChar sep rest with
      | nil => exact absurd hsp (splitChar_ne_nil sep rest)
      | cons q qs =>
        rw [hsp] at h
        rcases List.mem_cons.mp h with h1 | h1
        · subst h1
          intro hm
          rcases List.mem_cons.mp hm with h2 | h2
          · exact hc h2.symm
          · exact ih (hsp ▸ List.mem_cons_self q qs) h2
        · exact ih (hsp ▸ List.mem_cons_of_mem q h1)

/-- join on a two-or-more element list unfolds one step. -/
theorem joinSep_cons_cons (sep t u : List Char) (ts : List (List Char)) :
    joinSep sep (t :: u :: ts) = t ++ sep ++ joinSep sep (u :: ts) := rfl

/-- Splitting the comma-space join of comma-free pieces recovers the pieces,
each piece after the first carrying one leading space. -/
theorem splitChar_joinSep : ∀ (ts : List (List Char)) (t0 : List Char),
    (∀ t ∈ t0 :: ts, ',' ∉ t) →
    splitChar ',' (joinSep (", ".toList) (t0 :: ts)) =
      t0 :: ts.map (fun t => ' ' :: t) := by
  intro ts
  induction ts with
  | nil =>
    intro t0 hfree
    rw [joinSep]
    rw [splitChar_of_not_mem (hfree t0 (by simp))]
    rfl
  | cons t1 ts2 ih =>
    intro t0 hfree
    rw [joinSep_cons_cons]
    have hsh : t0 ++ ", ".toList ++ joinSep (", ".toList) (t1 :: ts2) =
        t0 ++ ',' :: ' ' :: joinSep (", ".toList) (t1 :: ts2) := by
      rw [List.append_assoc]; rfl
    rw [hsh, splitChar_append (hfree t0 (by simp))]
    have hih := ih t1 (fun t ht => hfree t (List.mem_cons_of_mem t0 ht))
    rw [splitChar_cons_of_ne (by decide) hih]
    rfl

/-- filterMap over a function that fixes every member is the identity. -/
theorem filterMap_fix : ∀ {ts : List (List Char)},
    (∀ t ∈ ts, cleanSingleTag t = some t) → ts.filterMap cleanSingleTag = ts := by
  intro ts
  induction ts with
  | nil => intro _; rfl
  | cons t ts2 ih =>
    intro h
    rw [List.filterMap_cons, h t (by simp)]
    rw [ih (fun u hu => h u (List.mem_cons_of_mem t hu))]

/-- Members of the dedup output come from the input. -/
theorem removeDupAux_subset : ∀ {ts : List (List Char)} {seen : List (List Char)}
    {t : List Char}, t ∈ removeDupAux seen ts → t ∈ ts := by
  intro ts
  induction ts with
  | nil => intro seen t h; simp [removeDupAux] at h
  | cons a ts2 ih =>
    intro seen t h
    rw [removeDupAux] at h
    split at h
    · exact List.mem_cons_of_mem a (ih h)
    · rcases List.mem_cons.mp h with h1 | h1
      · simp [h1]
      · exact List.mem_cons_of_mem a (ih h1)

/-- The dedup output has pairwise distinct lower-cased forms, none already
seen. -/
theorem removeDupAux_spec : ∀ (ts : List (List Char)) (seen : List (List Char)),
    List.Pairwise (fun a b => lowerStr a ≠ lowerStr b) (removeDupAux seen ts) ∧
    ∀ t ∈ removeDupAux seen ts, lowerStr t ∉ seen := by
  intro ts
  induction ts with
  | nil =>
    intro seen
    refine ⟨by simp [removeDupAux], ?_⟩
    intro t h
    simp [removeDupAux] at h
  | cons a ts2 ih =>
    intro seen
    rw [removeDupAux]
    split
    · exact ih seen
    · rename_i hseen
      constructor
      · rw [List.pairwise_cons]
        constructor
        · intro b hb
          have := (ih (lowerStr a :: seen)).2 b hb
          intro he
          exact this (by rw [← he]; exact List.mem_cons_self _ _)
        · exact (ih (lowerStr a :: seen)).1
      · intro t ht
        rcases List.mem_cons.mp ht with h1 | h1
        · rw [h1]; exact hseen
        · have := (ih (lowerStr a :: seen)).2 t h1
          intro hm
          exact this (List.mem_cons_of_mem _ hm)

/-- Dedup is the identity on a list with pairwise distinct lower-cased forms
disjoint from the seen set. -/
theorem removeDupAux_eq_self : ∀ (ts : List (List Char)) (seen : List (List Char)),
    List.Pairwise (fun a b => lowerStr a ≠ lowerStr b) ts →
    (∀ t ∈ ts, lowerStr t ∉ seen) → removeDupAux seen ts = ts := by
  intro ts
  induction ts with
  | nil => intro seen _ _; rfl
  | cons a ts2 ih =>
    intro seen hp hseen
    rw [removeDupAux, if_neg (hseen a (by simp))]
    rw [List.pairwise_cons] at hp
    rw [ih (lowerStr a :: seen) hp.2]
    intro t ht
    intro hm
    rcases List.mem_cons.mp hm with h1 | h1
    · exact hp.1 t ht h1.symm
    · exact hseen t (List.mem_cons_of_mem a ht) h1

/-- What cleanSingleTag outputs: a trimmed, nonempty string whose characters
are spaces or characters of the input. -/
theorem cleanSingleTag_some_spec {s t : List Char} (h : cleanSingleTag s = some t) :
    trimList t = t ∧ t ≠ [] ∧ ∀ c ∈ t, c = ' ' ∨ c ∈ s := by
  unfold cleanSingleTag at h
  split at h
  · simp at h
  · split at h
    · simp at h
    · dsimp only at h
      split at h
      · simp at h
      · rename_i hne
        rw [Option.some_inj] at h
        subst h
        refine ⟨trimList_idem _, by simpa using hne, ?_⟩
        intro c hc
        have h1 := mem_trimList hc
        rcases squeezeWS_mem h1 with h2 | h2
        · left; exact h2
        · right
          exact mem_replaceFirstSuffixMatch _ (mem_trimList h2)

/-- Every tag produced by clean is trimmed, nonempty and comma-free. -/
theorem clean_mem {raw t : List Char} (h : t ∈ clean raw) :
    trimList t = t ∧ t ≠ [] ∧ ',' ∉ t := by
  unfold clean at h
  split at h
  · simp at h
  · have h1 : t ∈ ((splitChar ',' raw).map trimList).filterMap cleanSingleTag :=
      removeDupAux_subset h
    rw [List.mem_filterMap] at h1
    obtain ⟨s, hs, hcs⟩ := h1
    rw [List.mem_map] at hs
    obtain ⟨s0, hs0, rfl⟩ := hs
    have hfree : ',' ∉ trimList s0 := fun hm => mem_splitChar hs0 (mem_trimList hm)
    have hspec := cleanSingleTag_some_spec hcs
    refine ⟨hspec.1, hspec.2.1, ?_⟩
    intro hm
    rcases hspec.2.2 ',' hm with h2 | h2
    · exact absurd h2 (by decide)
    · exact hfree h2

/-- The output of clean has pairwise distinct lower-cased forms. -/
theorem clean_pairwise (raw : List Char) :
    List.Pairwise (fun a b => lowerStr a ≠ lowerStr b) (clean raw) := by
  unfold clean
  split
  · simp
  · exact (removeDupAux_spec _ []).1

/-! ### Claim C4 -/

/-- Claim C4 is false on the code: cleaning the comma-join of a cleaned list
can differ from the first cleaning, because stripping one weight suffix may
expose a category word (or another weight suffix) that only the second pass
removes. -/
theorem C4_counterexample :
    ¬ (clean (joinSep (", ".toList) (clean "Artist 123".toList)) =
      clean "Artist 123".toList) := by
  decide

/-- Claim C4 (amended): clean is a fixed point on every raw input whose
cleaned tags are themselves unchanged by cleanSingleTag, that is, tags that
are not category words and carry no residual weight suffix; in general a
second pass may strip further. -/
theorem C4_clean_conditional_fixed_point (raw : List Char)
    (h : ∀ t ∈ clean raw, cleanSingleTag t = some t) :
    clean (joinSep (", ".toList) (clean raw)) = clean raw := by
  rcases hts : clean raw with _ | ⟨t0, rest⟩
  · simp [joinSep, clean]
  · have hmem : ∀ t ∈ t0 :: rest, trimList t = t ∧ t ≠ [] ∧ ',' ∉ t := by
      intro t ht
      exact clean_mem (by rw [hts]; exact ht)
    have hfree : ∀ t ∈ t0 :: rest, ',' ∉ t := fun t ht => (hmem t ht).2.2
    have hJ : joinSep (", ".toList) (t0 :: rest) ≠ [] := by
      cases rest with
      | nil =>
        rw [joinSep]
        exact (hmem t0 (by simp)).2.1
      | cons t1 rest2 =>
        rw [joinSep_cons_cons]
        intro hnil
        rw [List.append_assoc, List.append_eq_nil] at hnil
        exact (hmem t0 (by simp)).2.1 hnil.1
    unfold clean
    rw [if_neg (by simpa [List.isEmpty_iff] using hJ)]
    rw [splitChar_joinSep rest t0 hfree]
    have hmap : (t0 :: rest.map (fun t => ' ' :: t)).map trimList = t0 :: rest := by
      rw [List.map_cons, (hmem t0 (by simp)).1, List.map_map]
      congr 1
      rw [List.map_eq_map_iff.mpr, List.map_id]
      intro t ht
      show trimList (' ' :: t) = id t
      rw [trimList_cons_space, (hmem t (List.mem_cons_of_mem t0 ht)).1]
      rfl
    rw [hmap]
    rw [filterMap_fix (by rw [← hts]; exact h)]
    unfold removeDuplicates
    rw [removeDupAux_eq_self _ [] (by rw [← hts]; exact clean_pairwise raw)
      (by intro t _; simp)]

/-- Witness for C4 at a concrete input whose cleaned tags are stable. -/
theorem C4_clean_conditional_fixed_point_witness :
    (∀ t ∈ clean "1girl, blue eyes".toList, cleanSingleTag t = some t) ∧
    clean (joinSep (", ".toList) (clean "1girl, blue eyes".toList)) =
      clean "1girl, blue eyes".toList :=
  ⟨by decide, C4_clean_conditional_fixed_point _ (by decide)⟩


/-! ### Helper lemmas for claim C6 -/

/-- One unfolding of the bad-comma scan on a list of length at least two,
with the Boolean alternatives stated as propositions. -/
theorem hasBadCommaB_cons_cons_false_iff (c d : Char) (rest : List Char) :
    hasBadCommaB (c :: d :: rest) = false ↔
      (¬ (isWS c = true ∧ d = ',')) ∧
      (¬ (c = ',' ∧ isWS d = false)) ∧
      (¬ (c = ',' ∧ isWS d = true ∧ ∃ e, rest.head? = some e ∧ isWS e = true)) ∧
      hasBadCommaB (d :: rest) = false := by
  cases rest with
  | nil =>
    rw [show hasBadCommaB [c, d] =
      ((isWS c && d == ',') || (c == ',' && !isWS d) ||
        (c == ',' && isWS d && false) || hasBadCommaB [d]) from rfl]
    cases hc : isWS c <;> cases hd : isWS d <;>
      simp [hc, hd, Bool.or_eq_false_iff, beq_eq_false_iff_ne, beq_iff_eq, and_assoc]
  | cons e rest2 =>
    rw [show hasBadCommaB (c :: d :: e :: rest2) =
      ((isWS c && d == ',') || (c == ',' && !isWS d) ||
        (c == ',' && isWS d && isWS e) || hasBadCommaB (d :: e :: rest2)) from rfl]
    cases hc : isWS c <;> cases hd : isWS d <;> cases he : isWS e <;>
      simp [hc, hd, he, Bool.or_eq_false_iff, beq_eq_false_iff_ne, beq_iff_eq, and_assoc]

/-- The bad-comma regex rejects exactly the strings in which every comma is
preceded by no whitespace and followed by exactly one whitespace
character. -/
theorem hasBadCommaB_false_iff : ∀ l : List Char,
    hasBadCommaB l = false ↔ everyCommaSpacedWS l := by
  intro l
  induction l with
  | nil =>
    constructor
    · intro _ a b hab
      exact absurd hab.symm (by simp)
    · intro _
      rfl
  | cons c l ih =>
    cases l with
    | nil =>
      rw [show hasBadCommaB [c] = (c == ',') from rfl]
      constructor
      · intro h a b hab
        have hc : ¬ c = ',' := by simpa [beq_eq_false_iff_ne] using h
        exfalso
        cases a with
        | nil =>
          rw [List.nil_append] at hab
          exact hc (List.head_eq_of_cons_eq hab)
        | cons x a2 =>
          rw [List.cons_append] at hab
          have := List.tail_eq_of_cons_eq hab
          exact absurd this.symm (by simp)
      · intro h
        by_contra hb
        rw [Bool.not_eq_false] at hb
        have hc : c = ',' := beq_iff_eq.mp hb
        subst hc
        obtain ⟨-, d, b2, hb2, -, -⟩ := h [] [] rfl
        exact absurd hb2.symm (by simp)
    | cons d rest =>
      rw [hasBadCommaB_cons_cons_false_iff]
      constructor
      · rintro ⟨hA, hB, hC, hrec⟩ a b hab
        have hwf := ih.mp hrec
        cases a with
        | nil =>
          rw [List.nil_append] at hab
          have hc : c = ',' := List.head_eq_of_cons_eq hab
          have hbrest : d :: rest = b := List.tail_eq_of_cons_eq hab
          constructor
          · intro c2 hc2
            simp at hc2
          · have hwd : isWS d = true := by
              by_contra hd
              exact hB ⟨hc, by simpa using hd⟩
            refine ⟨d, rest, hbrest.symm, hwd, ?_⟩
            intro e he
            by_contra hwe
            rw [Bool.not_eq_false] at hwe
            exact hC ⟨hc, hwd, e, he, hwe⟩
        | cons x a2 =>
          rw [List.cons_append] at hab
          have hcx : c = x := List.head_eq_of_cons_eq hab
          have htl : d :: rest = a2 ++ ',' :: b := List.tail_eq_of_cons_eq hab
          have hsub := hwf a2 b htl
          constructor
          · intro c2 hc2
            cases a2 with
            | nil =>
              simp at hc2
              subst hc2
              have hd : d = ',' := by
                rw [List.nil_append] at htl
                exact List.head_eq_of_cons_eq htl
              by_contra hwc
              exact hA ⟨by simpa [hcx] using hwc, hd⟩
            | cons y a3 =>
              rw [List.getLast?_cons_cons] at hc2
              exact hsub.1 c2 hc2
          · exact hsub.2
      · intro hwf
        refine ⟨?_, ?_, ?_, ih.mpr ?_⟩
        · rintro ⟨hwc, hd⟩
          subst hd
          obtain ⟨h1, -⟩ := hwf [c] rest rfl
          exact absurd hwc (by simpa using h1 c rfl)
        · rintro ⟨hc, hd⟩
          subst hc
          obtain ⟨-, d2, b2, hb2, hwd2, -⟩ := hwf [] (d :: rest) rfl
          have : d2 = d := (List.head_eq_of_cons_eq hb2.symm)
          rw [this] at hwd2
          rw [hwd2] at hd
          exact absurd hd (by simp)
        · rintro ⟨hc, hwd, e, he, hwe⟩
          subst hc
          obtain ⟨-, d2, b2, hb2, -, hb2head⟩ := hwf [] (d :: rest) rfl
          have hd2 : d2 = d := (List.head_eq_of_cons_eq hb2.symm)
          have hrest : b2 = rest := List.tail_eq_of_cons_eq hb2.symm
          rw [hrest] at hb2head
          exact absurd (hb2head e he) (by simp [hwe])
        · intro a b hab
          have hsub := hwf (c :: a) b (by rw [hab, List.cons_append])
          constructor
          · intro c2 hc2
            cases a with
            | nil => simp at hc2
            | cons y a3 =>
              refine hsub.1 c2 ?_
              rw [List.getLast?_cons_cons]
              exact hc2
          · exact hsub.2

/-! ### Claim C6 -/

/-- Claim C6 is false on the code: a comma followed by a tab (one whitespace
character that is not a space) is accepted by isValidReplacement, while the
spec's wording, read with the space character, calls the string invalid. -/
theorem C6_counterexample :
    isValidReplacement "a,\tb".toList = true ∧ ¬ specValidReplacement "a,\tb".toList := by
  constructor
  · decide
  · intro h
    rcases h with h | h | h
    · exact absurd h (by decide)
    · exact h (by decide)
    · obtain ⟨hw, -, -⟩ := h
      obtain ⟨-, d, b2, hb, hd, -⟩ := hw ['a'] ['\t', 'b'] (by decide)
      have : d = '\t' := (List.head_eq_of_cons_eq hb.symm)
      rw [this] at hd
      exact absurd hd (by decide)

/-- Claim C6 (amended): isValidReplacement accepts exactly the strings the
spec describes once space is read as whitespace character: empty or
all-whitespace strings, strings without a comma, and strings in which every
comma is preceded by no whitespace and followed by exactly one whitespace
character, whose split on comma-space yields non-empty trimmed tokens that
rejoin byte-for-byte to the original. -/
theorem C6_isValidReplacement_characterisation (l : List Char) :
    isValidReplacement l = true ↔ amendedValidReplacement l := by
  unfold isValidReplacement amendedValidReplacement
  by_cases h1 : (trimList l).isEmpty = true
  · rw [if_pos h1]
    simp only [true_iff]
    exact Or.inl (List.isEmpty_iff.mp h1)
  · rw [if_neg h1]
    have h1' : ¬ trimList l = [] := fun he => h1 (by simp [he])
    by_cases h2 : l.contains ','
    · rw [if_pos h2]
      have h2' : ',' ∈ l := List.elem_iff.mp h2
      by_cases h3 : hasBadCommaB l
      · rw [if_pos h3]
        refine ⟨fun hff => absurd hff (by simp), fun h => ?_⟩
        exfalso
        rcases h with h | h | h
        · exact h1' h
        · exact h h2'
        · have := (hasBadCommaB_false_iff l).mpr h.1
          rw [h3] at this
          exact absurd this (by simp)
      · rw [if_neg h3]
        have h3' : hasBadCommaB l = false := by simpa using h3
        have hwf : everyCommaSpacedWS l := (hasBadCommaB_false_iff l).mp h3'
        dsimp only
        by_cases h4 : (splitCommaSpace l).any (fun p => (trimList p).isEmpty)
        · rw [if_pos h4]
          refine ⟨fun hff => absurd hff (by simp), fun h => ?_⟩
          exfalso
          rcases h with h | h | h
          · exact h1' h
          · exact h h2'
          · obtain ⟨p, hp, hpe⟩ := List.any_eq_true.mp h4
            exact h.2.1 p hp (List.isEmpty_iff.mp hpe)
        · rw [if_neg h4]
          rw [decide_eq_true_iff]
          constructor
          · intro hjoin
            refine Or.inr (Or.inr ⟨hwf, ?_, hjoin⟩)
            intro p hp hpe
            exact h4 (List.any_eq_true.mpr ⟨p, hp, by simp [hpe]⟩)
          · rintro (h | h | h)
            · exact absurd h h1'
            · exact absurd h2' h
            · exact h.2.2
    · rw [if_neg h2]
      constructor
      · intro _
        exact Or.inr (Or.inl (fun hm => h2 (List.elem_iff.mpr hm)))
      · intro _
        rfl

/-- Witness for C6 at a concrete well-formed replacement string. -/
theorem C6_isValidReplacement_characterisation_witness :
    amendedValidReplacement ("a, b".toList) :=
  (C6_isValidReplacement_characterisation "a, b".toList).mp (by decide)

end TagConv
